import Mathlib

/-!
Verification of the buttersink core: a shallow embedding of `S3Store.py`
(diff-graph model, bucket listing, transactional chunked upload) and of
`buttersink/ioctl.py` (binary structure codec and ioctl operation-code
composition), with theorems settling the specification's claims.

Conventions of the embedding:
* Python strings (bucket key names, volume identifiers) are `List Char`.
* Byte buffers are `List Nat`, each entry intended `< 256`.
* Python's true division `key.size / 2**20` (the module does
  `from __future__ import division`) is modelled exactly in `ℚ`.
* Fallible Python code (exceptions such as `AttributeError` from a failed
  regex match, `KeyError` from a dict lookup, `struct.error` from an
  out-of-range value) is modelled with `Option` / an error `Bool`.
* The regex `^<prefix>(?P<to>[^/]*)/(?P<from>.*)$` is modelled for literal
  prefixes: the `to` group is the longest slash-free run after the prefix,
  the `from` group is everything after the first following slash.
-/

namespace S3

/-- An object returned by a bucket listing: key name and byte size,
as reported by the store (`key.name`, `key.size` in `S3Store._listBucket`). -/
structure Key where
  name : List Char
  size : Nat
deriving DecidableEq

/-- One diff dict as built by `S3Store._listBucket`:
`{'from': ..., 'to': ..., 'size': key.size / (2**20), 'path': ...}`.
The Python `from` key is called `frm` here (`from` is a Lean keyword). -/
structure Diff where
  frm : Option (List Char)
  toV : List Char
  size : ℚ
  path : List Char
deriving DecidableEq

/-- A volume record `{'uuid': diff['to'], 'path': diff['to']}` from
`S3Store._listBucket`. -/
structure Vol where
  uuid : List Char
  path : List Char
deriving DecidableEq

/-- The mutable collections of an `S3Store`: `self.diffs` and `self.vols`
(`self.vols` modelled as an insertion-ordered association list, Python dict). -/
structure S3State where
  diffs : List Diff
  vols : List (List Char × Vol)
deriving DecidableEq

/-- The literal string `"None"` used as the no-parent marker in key names. -/
def noneStr : List Char := "None".data

/-- Model of matching `^<pfx>(?P<to>[^/]*)/(?P<from>.*)$` against `name`
(for a prefix with no regex metacharacters, as a bucket key prefix is).
`none` models a failed match (`pattern.match(...)` returning `None`,
which makes `_listBucket` raise `AttributeError` on `.groupdict()`). -/
def parseKey (pfx name : List Char) : Option (List Char × List Char) :=
  if pfx.isPrefixOf name then
    let rest := name.drop pfx.length
    match rest.dropWhile (fun c => c ≠ '/') with
    | '/' :: frm => some (rest.takeWhile (fun c => c ≠ '/'), frm)
    | _ => none
  else none

/-- Lines 54-60 of `S3Store.py` for a single key: match the pattern, turn a
literal `'None'` from-group into `None`, and build the diff dict with
`size = key.size / (2**20)` (true division, modelled in `ℚ`). -/
def parseDiff (pfx : List Char) (k : Key) : Option Diff :=
  match parseKey pfx k.name with
  | none => none
  | some (toV, frmV) =>
    some { frm := if frmV = noneStr then none else some frmV,
           toV := toV,
           size := (k.size : ℚ) / 2 ^ 20,
           path := toV }

/-- Python dict insertion: overwrite the value in place if the key is
present, else append the binding at the end (insertion order preserved). -/
def dictInsert (m : List (List Char × Vol)) (k : List Char) (v : Vol) :
    List (List Char × Vol) :=
  if k ∈ m.map Prod.fst then m.map (fun p => if p.1 = k then (k, v) else p)
  else m ++ [(k, v)]

/-- The dict comprehension of line 64:
`{diff['to']: {'uuid': diff['to'], 'path': diff['to']} for diff in self.diffs}`. -/
def mkVols (ds : List Diff) : List (List Char × Vol) :=
  ds.foldl (fun m d => dictInsert m d.toV ⟨d.toV, d.toV⟩) []

/-- The listing loop of `_listBucket`: starting from `self.diffs = []` it
appends one parsed diff per key; a key whose name fails the pattern raises,
leaving the diffs accumulated so far.  Returns the final `self.diffs`
value and `true` iff the loop completed without raising. -/
def listBucketGo (pfx : List Char) (keys : List Key) (acc : List Diff) :
    List Diff × Bool :=
  match keys with
  | [] => (acc, true)
  | k :: rest =>
    match parseDiff pfx k with
    | none => (acc, false)
    | some d => listBucketGo pfx rest (acc ++ [d])

/-- `S3Store._listBucket` over the listed keys: `self.diffs` is replaced by
the (possibly partial) accumulated list; `self.vols` is reassigned only on
the success path, since line 64 runs after the loop finishes. -/
def listBucket (pfx : List Char) (st : S3State) (keys : List Key) :
    S3State × Bool :=
  match listBucketGo pfx keys [] with
  | (ds, true) => ({ diffs := ds, vols := mkVols ds }, true)
  | (ds, false) => ({ diffs := ds, vols := st.vols }, false)

/-- `S3Store.listVolumes`: `self.vols.values()` in insertion order. -/
def listVolumes (st : S3State) : List Vol := st.vols.map Prod.snd

/-- `S3Store.getVolume`: `self.vols[uuid]`; `none` models `KeyError`. -/
def getVolume (st : S3State) (uuid : List Char) : Option Vol :=
  st.vols.lookup uuid

/-- The edge dict `{'to': diff['to'], 'size': diff['size']}` yielded by
`S3Store.iterEdges`. -/
structure Edge where
  toV : List Char
  size : ℚ
deriving DecidableEq

/-- `S3Store.iterEdges`: yield, in listing order, one edge dict per diff
whose `from` equals `fromVol` (`fromVol = none` selects full snapshots). -/
def iterEdges (ds : List Diff) (fromVol : Option (List Char)) : List Edge :=
  match ds with
  | [] => []
  | d :: rest =>
    if d.frm = fromVol then ⟨d.toV, d.size⟩ :: iterEdges rest fromVol
    else iterEdges rest fromVol

/-- `S3Store.hasEdge`: scan `self.diffs` for a diff with the given `from`
and `to`. -/
def hasEdge (ds : List Diff) (toUUID : List Char)
    (fromUUID : Option (List Char)) : Bool :=
  match ds with
  | [] => false
  | d :: rest =>
    if d.frm = fromUUID ∧ d.toV = toUUID then true
    else hasEdge rest toUUID fromUUID

/-- The upload chunk size constant `theChunkSize = 100 * 2**20`. -/
def theChunkSize : Nat := 100 * 2 ^ 20

/-- Observable calls of a transfer: reading the source stream
(`diff.diffSink.send`), and the `_Uploader` calls `initiate_multipart_upload`
(with its key name), `upload_part_from_file` (with its part number),
`complete_upload` and `cancel_upload`. -/
inductive Event where
  | sendStream
  | initiate (key : List Char)
  | uploadPart (n : Nat)
  | completeUpload
  | cancelUpload
deriving DecidableEq

/-- The `while True` loop of `S3Store._upload` together with
`_Uploader.upload`: read a chunk; an empty read breaks the loop; otherwise
increment `chunkCount` and call `upload_part_from_file` with it.  `fails n`
says whether the part-`n` upload call raises.  Returns the recorded upload
calls and whether the loop ended by an exception. -/
def uploadLoop (chunks : List (List Nat)) (fails : Nat → Bool)
    (chunkCount : Nat) : List Event × Bool :=
  match chunks with
  | [] => ([], false)
  | c :: rest =>
    if c = [] then ([], false)
    else
      if fails (chunkCount + 1) then ([Event.uploadPart (chunkCount + 1)], true)
      else
        let r := uploadLoop rest fails (chunkCount + 1)
        (Event.uploadPart (chunkCount + 1) :: r.1, r.2)

/-- `S3Store._upload` under the `_Uploader` context manager: `__enter__`
initiates the multipart upload and sets `chunkCount = 0`; the loop runs;
`__exit__` calls `complete_upload` when no exception is pending and
`cancel_upload` otherwise, returning `False` so the exception propagates
(the returned `Bool` is `true` iff an error propagates to the caller). -/
def runUpload (keyName : List Char) (chunks : List (List Nat))
    (fails : Nat → Bool) : List Event × Bool :=
  let r := uploadLoop chunks fails 0
  (Event.initiate keyName ::
      (r.1 ++ [if r.2 then Event.cancelUpload else Event.completeUpload]),
    r.2)

/-- Python `"%s" % x` for `x` a string or `None`: `None` prints as `"None"`. -/
def pyStr (o : Option (List Char)) : List Char := o.getD noneStr

/-- Line 97 of `S3Store.py`:
`name = "%s%s/%s" % (self.prefix, diff.uuid, diff.previous)`. -/
def makeName (pfx uuid : List Char) (previous : Option (List Char)) :
    List Char :=
  pfx ++ uuid ++ '/' :: pyStr previous

/-- The fields of the `diff` argument of `S3Store.receive` that it uses:
`diff.uuid`, `diff.previous`, and the identity of `diff.diffSink`
(stores compared by object identity, modelled as a `Nat` id). -/
structure DiffRequest where
  uuid : List Char
  previous : Option (List Char)
  diffSink : Nat
deriving DecidableEq

/-- `S3Store.receive`: return immediately when `diff.diffSink == self`;
otherwise obtain the stream from the source sink, build the key name, and
run `_upload` on it. -/
def receive (selfId : Nat) (pfx : List Char) (d : DiffRequest)
    (chunks : List (List Nat)) (fails : Nat → Bool) : List Event × Bool :=
  if d.diffSink = selfId then ([], false)
  else
    let r := runUpload (makeName pfx d.uuid d.previous) chunks fails
    (Event.sendStream :: r.1, r.2)

/-- Part number of an upload-call event, `none` for the other events. -/
def partNum : Event → Option Nat
  | Event.uploadPart n => some n
  | _ => none

end S3

namespace Ioctl

/-- Bit width of the ioctl operation-number field (`NRBITS = 8`). -/
def NRBITS : Nat := 8

/-- Bit width of the ioctl type field (`TYPEBITS = 8`). -/
def TYPEBITS : Nat := 8

/-- Bit width of the ioctl size field (`SIZEBITS = 14`). -/
def SIZEBITS : Nat := 14

/-- Bit width of the ioctl direction field (`DIRBITS = 2`). -/
def DIRBITS : Nat := 2

/-- Mask for the operation-number field (`NRMASK = (1 << NRBITS) - 1`). -/
def NRMASK : Nat := (1 <<< NRBITS) - 1

/-- Mask for the type field (`TYPEMASK = (1 << TYPEBITS) - 1`). -/
def TYPEMASK : Nat := (1 <<< TYPEBITS) - 1

/-- Mask for the size field (`SIZEMASK = (1 << SIZEBITS) - 1`). -/
def SIZEMASK : Nat := (1 <<< SIZEBITS) - 1

/-- Mask for the direction field (`DIRMASK = (1 << DIRBITS) - 1`). -/
def DIRMASK : Nat := (1 <<< DIRBITS) - 1

/-- Offset of the operation-number field (`NRSHIFT = 0`). -/
def NRSHIFT : Nat := 0

/-- Offset of the type field (`TYPESHIFT = NRSHIFT + NRBITS`). -/
def TYPESHIFT : Nat := NRSHIFT + NRBITS

/-- Offset of the size field (`SIZESHIFT = TYPESHIFT + TYPEBITS`). -/
def SIZESHIFT : Nat := TYPESHIFT + TYPEBITS

/-- Offset of the direction field (`DIRSHIFT = SIZESHIFT + SIZEBITS`). -/
def DIRSHIFT : Nat := SIZESHIFT + SIZEBITS

/-- Direction value `NONE = 0`. -/
def NONE : Nat := 0

/-- Direction value `WRITE = 1`. -/
def WRITE : Nat := 1

/-- Direction value `READ = 2`. -/
def READ : Nat := 2

/-- `Control._iocNumber(dir, type, nr, size)`:
`dir << DIRSHIFT | type << TYPESHIFT | nr << NRSHIFT | size << SIZESHIFT`. -/
def iocNumber (dir typ nr size : Nat) : Nat :=
  dir <<< DIRSHIFT ||| typ <<< TYPESHIFT ||| nr <<< NRSHIFT ||| size <<< SIZESHIFT

/-- A field descriptor `(typeDef, name, len, reader, writer)` of `Structure`,
as a closed enumeration of the forms `_parseDefinition` handles:
* `uintF name w`: an unsigned integer of `w` bytes (`t.u8/u16/u32/u64`,
  standard sizes, native little-endian x86 order under the `'='` prefix);
* `charF name`: the one-byte `t.char` (`'c'`) format, its value the byte;
* `bytesF name len asString`: a repeated field packed as the `struct`
  format `'<len>s'` (fixed-length byte string, silently truncated or
  right-padded with zero bytes); `asString = true` means the field was
  declared with the `t.readString`/`t.writeString` pair, whose writer
  appends a terminating zero byte, and whose reader keeps the content
  before the first zero byte (values modelled as their encoded bytes);
* `padF name len`: a `'<len>x'` padding field (`Structure.skipType`):
  zero bytes on write, no value on read (`popValue` returns `None`);
* `nestedF name sub`: a nested `Structure`, whose format is inlined. -/
inductive FieldDef where
  | uintF (name : String) (w : Nat)
  | charF (name : String)
  | bytesF (name : String) (len : Nat) (asString : Bool)
  | padF (name : String) (len : Nat)
  | nestedF (name : String) (sub : List FieldDef)

/-- A field value, positionally aligned with the field list of its record:
an integer, a byte string, a nested record value, or `None` (what a
padding field reads back as). -/
inductive Value where
  | vInt (n : Nat)
  | vBytes (b : List Nat)
  | vRec (vs : List Value)
  | vNone

/-- Little-endian bytes of `n` on `w` bytes. -/
def toLE : Nat → Nat → List Nat
  | 0, _ => []
  | w + 1, n => n % 256 :: toLE w (n / 256)

/-- The integer read back from little-endian bytes. -/
def fromLE : List Nat → Nat
  | [] => 0
  | b :: bs => b + 256 * fromLE bs

/-- `struct` packing of the `'<len>s'` format: truncate to `len` bytes or
right-pad with zero bytes up to `len`. -/
def padTrunc (b : List Nat) (len : Nat) : List Nat :=
  b.take len ++ List.replicate (len - b.length) 0

/-- `t.readString` at the byte level: the content before the first zero
byte (the whole string when no zero byte is present). -/
def trimNull (b : List Nat) : List Nat :=
  b.takeWhile (fun x => decide (x ≠ 0))

mutual

/-- Bytes contributed by one field on `Structure.write`: the field's writer
applied to its value, packed by its `struct` format.  `none` models
`struct.error` on an out-of-range integer or a value of the wrong type. -/
def writeField : FieldDef → Value → Option (List Nat) :=
  fun f v =>
  match f, v with
  | .uintF _ w, .vInt n => if n < 256 ^ w then some (toLE w n) else none
  | .charF _, .vInt n => if n < 256 then some [n] else none
  | .bytesF _ len false, .vBytes b =>
    if b.all (fun x => decide (x < 256)) then some (padTrunc b len) else none
  | .bytesF _ len true, .vBytes b =>
    if b.all (fun x => decide (x < 256)) then some (padTrunc (b ++ [0]) len)
    else none
  | .padF _ len, _ => some (List.replicate len 0)
  | .nestedF _ sub, .vRec vs => writeFields sub vs
  | _, _ => none

/-- `Structure.write` over a field list: concatenate the packed fields in
declaration order (`yieldArgs` walks `self._types.items()` in order and
`pack_into` lays the flat arguments out left to right). -/
def writeFields : List FieldDef → List Value → Option (List Nat)
  | [], [] => some []
  | f :: fs, v :: vs =>
    match writeField f v, writeFields fs vs with
    | some b1, some b2 => some (b1 ++ b2)
    | _, _ => none
  | _, _ => none

end

mutual

/-- Value and remaining buffer produced by one field on `Structure.read`:
unpack the field's `struct` format and apply its reader.  `none` models
`struct.error` on a buffer shorter than the format requires. -/
def readField : FieldDef → List Nat → Option (Value × List Nat) :=
  fun f bs =>
  match f, bs with
  | .uintF _ w, bs =>
    if w ≤ bs.length then some (.vInt (fromLE (bs.take w)), bs.drop w)
    else none
  | .charF _, b :: rest => some (.vInt b, rest)
  | .charF _, [] => none
  | .bytesF _ len false, bs =>
    if len ≤ bs.length then some (.vBytes (bs.take len), bs.drop len)
    else none
  | .bytesF _ len true, bs =>
    if len ≤ bs.length then some (.vBytes (trimNull (bs.take len)), bs.drop len)
    else none
  | .padF _ len, bs =>
    if len ≤ bs.length then some (.vNone, bs.drop len) else none
  | .nestedF _ sub, bs =>
    match readFields sub bs with
    | some (vs, rest) => some (.vRec vs, rest)
    | none => none

/-- `Structure.read` over a field list, consuming the buffer field by field
in declaration order (`popValue` pops the reversed flat argument list in
exactly that order), returning the values and the unread remainder. -/
def readFields : List FieldDef → List Nat → Option (List Value × List Nat)
  | [], bs => some ([], bs)
  | f :: fs, bs =>
    match readField f bs with
    | some (v, rest) =>
      match readFields fs rest with
      | some (vs, rest2) => some (v :: vs, rest2)
      | none => none
    | none => none

end

/-- `Structure.write(values)` for a record descriptor. -/
def structWrite (fields : List FieldDef) (vs : List Value) :
    Option (List Nat) :=
  writeFields fields vs

/-- `Structure.read(data)` for a record descriptor (extra trailing bytes
are ignored, as `unpack_from` ignores them). -/
def structRead (fields : List FieldDef) (bs : List Nat) :
    Option (List Value) :=
  (readFields fields bs).map Prod.fst

mutual

/-- The value a field reads back after being written: the identity on
integer and char fields, truncate-or-pad (and trim at the first zero byte
for string fields) on byte-array fields, `None` on padding fields, and the
recursive image on nested records. -/
def canonField : FieldDef → Value → Value :=
  fun f v =>
  match f, v with
  | .uintF _ _, v => v
  | .charF _, v => v
  | .bytesF _ len false, .vBytes b => .vBytes (padTrunc b len)
  | .bytesF _ len true, .vBytes b => .vBytes (trimNull (padTrunc b len))
  | .padF _ _, _ => .vNone
  | .nestedF _ sub, .vRec vs => .vRec (canonFields sub vs)
  | _, v => v

/-- `canonField` over a field list, positionally. -/
def canonFields : List FieldDef → List Value → List Value
  | [], _ => []
  | _ :: _, [] => []
  | f :: fs, v :: vs => canonField f v :: canonFields fs vs

end

mutual

/-- A field type whose reader/writer pair is not lossy: integers, chars,
and nested records of such fields (byte arrays and padding are the
declared-lossy cases). -/
def noLossyField : FieldDef → Bool
  | .uintF _ _ => true
  | .charF _ => true
  | .bytesF _ _ _ => false
  | .padF _ _ => false
  | .nestedF _ sub => noLossyFields sub

/-- `noLossyField` over a field list. -/
def noLossyFields : List FieldDef → Bool
  | [] => true
  | f :: fs => noLossyField f && noLossyFields fs

end

end Ioctl

namespace S3

/-- A prior store state holding one listed diff and one volume. -/
def st0 : S3State :=
  { diffs := [{ frm := none, toV := "A".data, size := 5, path := "A".data }],
    vols := [("A".data, ⟨"A".data, "A".data⟩)] }

/-- A listing whose second key name has no slash after the prefix, so the
pattern match on it fails after the first key was already parsed. -/
def keys0 : List Key :=
  [{ name := "p/B/None".data, size := 0 }, { name := "p/C".data, size := 0 }]

/-- A single listed object of 2 MiB (2097152 bytes). -/
def key1 : Key := { name := "p/A/None".data, size := 2097152 }

/-- The empty store state. -/
def stEmpty : S3State := { diffs := [], vols := [] }

/-- The state after listing `key1` from scratch. -/
def st1 : S3State :=
  { diffs := [{ frm := none, toV := "A".data, size := 2, path := "A".data }],
    vols := [("A".data, ⟨"A".data, "A".data⟩)] }

/-- The scenario listing: objects `snap/V2/V1` and `snap/V1/None`. -/
def keysScen : List Key :=
  [{ name := "snap/V2/V1".data, size := 0 },
   { name := "snap/V1/None".data, size := 0 }]

/-- The state after listing `keysScen` under prefix `snap/`. -/
def stScen : S3State :=
  { diffs := [{ frm := some ("V1".data), toV := "V2".data, size := 0, path := "V2".data },
              { frm := none, toV := "V1".data, size := 0, path := "V1".data }],
    vols := [("V2".data, ⟨"V2".data, "V2".data⟩),
             ("V1".data, ⟨"V1".data, "V1".data⟩)] }

/-- A two-chunk stream. -/
def chunks2 : List (List Nat) := [[1], [2]]

/-- A failure schedule on which no part upload raises. -/
def noFail : Nat → Bool := fun _ => false

/-- A failure schedule on which the second part upload raises. -/
def failSecond : Nat → Bool := fun n => decide (n = 2)

end S3

namespace Ioctl

/-- The doc-example descriptor of `Structure`: a `u16` field `foo`, an
8-byte string field `bar` with the string reader/writer, and a nested
record `foobar` holding one char field `char1`. -/
def fields0 : List FieldDef :=
  [.uintF ("foo") 2, .bytesF ("bar") 8 true, .nestedF ("foobar") [.charF ("char1")]]

/-- The doc-example values `foo=8, bar="hola", foobar={char1: 'a'}`
(strings at the byte level). -/
def vals0 : List Value :=
  [.vInt 8, .vBytes [104, 111, 108, 97], .vRec [.vInt 97]]

/-- The 11-byte buffer the doc example packs to. -/
def bytes0 : List Nat := [8, 0, 104, 111, 108, 97, 0, 0, 0, 0, 97]

end Ioctl

namespace S3

/-- The `iterEdges` loop yields exactly the matching diffs, projected to
edge dicts, in listing order. -/
theorem iterEdges_eq (ds : List Diff) (fv : Option (List Char)) :
    iterEdges ds fv
      = (ds.filter (fun d => decide (d.frm = fv))).map
          (fun d => ⟨d.toV, d.size⟩) := by
  induction ds with
  | nil => rfl
  | cons d rest ih =>
    by_cases h : d.frm = fv
    · simp [iterEdges, h, ih]
    · simp [iterEdges, h, ih]

/-- The `hasEdge` scan succeeds exactly when a matching diff is listed. -/
theorem hasEdge_iff (ds : List Diff) (toU : List Char)
    (fv : Option (List Char)) :
    hasEdge ds toU fv = true ↔ ∃ d ∈ ds, d.frm = fv ∧ d.toV = toU := by
  induction ds with
  | nil => simp [hasEdge]
  | cons d rest ih =>
    by_cases h : d.frm = fv ∧ d.toV = toU
    · simp only [hasEdge, if_pos h]
      exact iff_of_true trivial ⟨d, List.mem_cons_self d rest, h⟩
    · simp only [hasEdge, if_neg h, ih]
      constructor
      · rintro ⟨e, he, hp⟩
        exact ⟨e, List.mem_cons_of_mem d he, hp⟩
      · rintro ⟨e, he, hp⟩
        rcases List.mem_cons.mp he with rfl | he'
        · exact absurd hp h
        · exact ⟨e, he', hp⟩

/-- C5: for a listing `D`, `hasEdge(to, from)` is true iff some listed diff
has that `to` and `from`, and `iterEdges(from)` yields exactly the diffs
with that `from` (projected to their edge dicts), in listing order,
including the `from = None` full-snapshot case. -/
theorem graph_queries (ds : List Diff) (toU : List Char)
    (fv : Option (List Char)) :
    (hasEdge ds toU fv = true ↔ ∃ d ∈ ds, d.frm = fv ∧ d.toV = toU) ∧
    iterEdges ds fv
      = (ds.filter (fun d => decide (d.frm = fv))).map
          (fun d => ⟨d.toV, d.size⟩) :=
  ⟨hasEdge_iff ds toU fv, iterEdges_eq ds fv⟩

end S3

namespace S3

/-- The listing loop accumulates the diffs parsed before the first failing
key, and succeeds exactly when every key parses. -/
theorem listBucketGo_eq (pfx : List Char) (keys : List Key) (acc : List Diff) :
    listBucketGo pfx keys acc
      = (acc ++ (keys.takeWhile
            (fun k => (parseDiff pfx k).isSome)).filterMap (parseDiff pfx),
         keys.all (fun k => (parseDiff pfx k).isSome)) := by
  induction keys generalizing acc with
  | nil => simp [listBucketGo]
  | cons k rest ih =>
    cases h : parseDiff pfx k with
    | none => simp [listBucketGo, h]
    | some d => simp [listBucketGo, h, ih]

/-- Closed form of `_listBucket`: on success the collections are rebuilt
from the fully parsed listing; on failure `self.diffs` holds the partial
parse and `self.vols` keeps its prior value. -/
theorem listBucket_eq (pfx : List Char) (st : S3State) (keys : List Key) :
    listBucket pfx st keys =
      if keys.all (fun k => (parseDiff pfx k).isSome) then
        ({ diffs := keys.filterMap (parseDiff pfx),
           vols := mkVols (keys.filterMap (parseDiff pfx)) }, true)
      else
        ({ diffs := (keys.takeWhile
              (fun k => (parseDiff pfx k).isSome)).filterMap (parseDiff pfx),
           vols := st.vols }, false) := by
  unfold listBucket
  rw [listBucketGo_eq]
  cases hall : keys.all (fun k => (parseDiff pfx k).isSome) with
  | true =>
    have htw : keys.takeWhile (fun k => (parseDiff pfx k).isSome) = keys :=
      List.takeWhile_eq_self_iff.mpr (by simpa using hall)
    simp [htw]
  | false => simp

/-- Every parsed diff carries `size = key.size / 2**20`. -/
theorem parseDiff_size (pfx : List Char) (k : Key) (d : Diff)
    (h : parseDiff pfx k = some d) : d.size = (k.size : ℚ) / 2 ^ 20 := by
  rcases hp : parseKey pfx k.name with _ | ⟨toV, frmV⟩
  · simp [parseDiff, hp] at h
  · simp [parseDiff, hp] at h
    rw [← h]

/-- Sizes of a fully parsed listing, in order. -/
theorem filterMap_size_map (pfx : List Char) (keys : List Key)
    (h : ∀ k ∈ keys, (parseDiff pfx k).isSome = true) :
    (keys.filterMap (parseDiff pfx)).map Diff.size
      = keys.map (fun k => (k.size : ℚ) / 2 ^ 20) := by
  induction keys with
  | nil => rfl
  | cons k rest ih =>
    obtain ⟨d, hd⟩ :=
      Option.isSome_iff_exists.mp (h k (List.mem_cons_self k rest))
    rw [List.filterMap_cons_some hd]
    simp only [List.map_cons, parseDiff_size pfx k d hd]
    rw [ih (fun k' hk' => h k' (List.mem_cons_of_mem k hk'))]

/-- The single key `key1` parses to a diff of 2 (its byte size in MiB). -/
theorem parseDiff_key1 :
    parseDiff ("p/".data) key1
      = some { frm := none, toV := "A".data, size := 2, path := "A".data } := by
  have h2 : parseKey ("p/".data) "p/A/None".data
      = some ("A".data, "None".data) := by decide
  simp [parseDiff, key1, h2, noneStr]
  norm_num

/-- Listing `key1` from the empty state succeeds and produces `st1`. -/
theorem listBucket_key1 : listBucket ("p/".data) stEmpty [key1] = (st1, true) := by
  have hall : [key1].all (fun k => (parseDiff ("p/".data) k).isSome) = true := by
    simp only [List.all_cons, List.all_nil, Bool.and_true]
    rw [parseDiff_key1]
    rfl
  have hfm : [key1].filterMap (parseDiff ("p/".data))
      = [{ frm := none, toV := "A".data, size := 2, path := "A".data }] := by
    rw [List.filterMap_cons_some parseDiff_key1, List.filterMap_nil]
  rw [listBucket_eq, hall]
  simp only [if_true, hfm]
  rfl

/-- C1 counterexample: the listed object has byte size 2097152, but the
diff stored in the graph model exposes size 2 — the size is divided by
`2**20` before being stored, so it does not equal the byte size. -/
theorem sizes_converted_counterexample :
    (listBucket ("p/".data) stEmpty [key1]).1.diffs.map Diff.size = [(2 : ℚ)] ∧
    (2 : ℚ) ≠ (key1.size : ℚ) := by
  constructor
  · rw [listBucket_key1]
    simp [st1]
  · norm_num [key1]

/-- C1 amended: every diff built by a successful listing exposes
`size = key.size / 2**20` (the byte size converted to MiB by true
division), in listing order, and `iterEdges` yields those stored sizes
unchanged. -/
theorem sizes_in_mb (pfx : List Char) (st st' : S3State) (keys : List Key)
    (h : listBucket pfx st keys = (st', true)) :
    st'.diffs.map Diff.size = keys.map (fun k => (k.size : ℚ) / 2 ^ 20) ∧
    ∀ fv, (iterEdges st'.diffs fv).map Edge.size
        = (st'.diffs.filter (fun d => decide (d.frm = fv))).map Diff.size := by
  rw [listBucket_eq] at h
  cases hall : keys.all (fun k => (parseDiff pfx k).isSome) with
  | false => rw [hall] at h; simp at h
  | true =>
    rw [hall] at h
    simp only [if_true] at h
    have h1 : st'.diffs = keys.filterMap (parseDiff pfx) := by
      have := congrArg (fun p => p.1.diffs) h
      simpa using this.symm
    constructor
    · rw [h1]
      exact filterMap_size_map pfx keys (by simpa using hall)
    · intro fv
      rw [iterEdges_eq]
      simp [List.map_map, Function.comp]

/-- Witness for the amended C1 at the concrete listing of `key1`. -/
theorem sizes_in_mb_witness :
    st1.diffs.map Diff.size = [key1].map (fun k => (k.size : ℚ) / 2 ^ 20) ∧
    (iterEdges st1.diffs none).map Edge.size
      = (st1.diffs.filter (fun d => decide (d.frm = none))).map Diff.size :=
  ⟨(sizes_in_mb ("p/".data) stEmpty st1 [key1] listBucket_key1).1,
   (sizes_in_mb ("p/".data) stEmpty st1 [key1] listBucket_key1).2 none⟩

end S3

namespace S3

/-- The first key of `keys0` parses to a diff targeting `B`. -/
theorem parseDiff_keyB :
    parseDiff ("p/".data) { name := "p/B/None".data, size := 0 }
      = some { frm := none, toV := "B".data, size := 0, path := "B".data } := by
  have h2 : parseKey ("p/".data) "p/B/None".data
      = some ("B".data, "None".data) := by decide
  simp [parseDiff, h2, noneStr]

/-- The second key of `keys0` fails the listing pattern (no second slash). -/
theorem parseDiff_keyC :
    parseDiff ("p/".data) { name := "p/C".data, size := 0 } = none := by decide

/-- Listing `keys0` over the prior state `st0` fails on the second key,
leaving the partial one-diff parse in `diffs` and the old `vols`. -/
theorem listBucket_keys0 :
    listBucket ("p/".data) st0 keys0
      = ({ diffs := [{ frm := none, toV := "B".data, size := 0, path := "B".data }],
           vols := st0.vols }, false) := by
  have hgo : listBucketGo ("p/".data) keys0 []
      = ([{ frm := none, toV := "B".data, size := 0, path := "B".data }], false) := by
    simp only [keys0, listBucketGo]
    rw [parseDiff_keyB, parseDiff_keyC]
    rfl
  unfold listBucket
  rw [hgo]

/-- C7 counterexample: after the failed listing of `keys0`, the store's
diff collection is not the prior one — it has been replaced by the partial
parse (the prior `st0.diffs` listed `A`, the partial result lists `B`). -/
theorem failed_listing_counterexample :
    (listBucket ("p/".data) st0 keys0).2 = false ∧
    (listBucket ("p/".data) st0 keys0).1.diffs ≠ st0.diffs := by
  rw [listBucket_keys0]
  refine ⟨rfl, ?_⟩
  intro hc
  have hmap := congrArg (fun l => l.map Diff.toV) hc
  simp only [st0, List.map_cons, List.map_nil] at hmap
  exact absurd hmap (by decide)

/-- C7 amended: a failed listing leaves the prior volume collection
untouched, but replaces the diff collection with the prefix of the listing
parsed before the failure. -/
theorem failed_listing (pfx : List Char) (st : S3State) (keys : List Key)
    (h : (listBucket pfx st keys).2 = false) :
    (listBucket pfx st keys).1.vols = st.vols ∧
    (listBucket pfx st keys).1.diffs
      = (keys.takeWhile
          (fun k => (parseDiff pfx k).isSome)).filterMap (parseDiff pfx) := by
  rw [listBucket_eq] at h ⊢
  cases hall : keys.all (fun k => (parseDiff pfx k).isSome) with
  | true => rw [hall] at h; simp at h
  | false => simp

/-- Witness for the amended C7 at the concrete failed listing `keys0`. -/
theorem failed_listing_witness :
    (listBucket ("p/".data) st0 keys0).1.vols = st0.vols ∧
    (listBucket ("p/".data) st0 keys0).1.diffs
      = (keys0.takeWhile
          (fun k => (parseDiff ("p/".data) k).isSome)).filterMap
            (parseDiff ("p/".data)) :=
  failed_listing ("p/".data) st0 keys0 (by rw [listBucket_keys0])

end S3

namespace S3

/-- `takeWhile`/`dropWhile` of the not-a-slash predicate split a string of
the form `l ++ '/' :: r`, with `l` slash-free, at that first slash. -/
theorem split_at_slash (l r : List Char) (h : ∀ c ∈ l, c ≠ '/') :
    (l ++ '/' :: r).takeWhile (fun c => c ≠ '/') = l ∧
    (l ++ '/' :: r).dropWhile (fun c => c ≠ '/') = '/' :: r := by
  induction l with
  | nil => simp [List.takeWhile_cons, List.dropWhile_cons]
  | cons c l ih =>
    have hc : c ≠ '/' := h c (List.mem_cons_self c l)
    have ih' := ih (fun x hx => h x (List.mem_cons_of_mem c hx))
    have hpc : decide (c ≠ '/') = true := decide_eq_true hc
    rw [List.cons_append, List.takeWhile_cons, List.dropWhile_cons, hpc]
    simp only [if_true]
    exact ⟨by rw [ih'.1], by rw [ih'.2]⟩

/-- The regex model inverts `makeName`: matching the uploaded name under
the same prefix recovers the `to` identifier and the raw last segment. -/
theorem parseKey_makeName (pfx toV : List Char) (prev : Option (List Char))
    (h : ∀ c ∈ toV, c ≠ '/') :
    parseKey pfx (makeName pfx toV prev) = some (toV, pyStr prev) := by
  unfold parseKey makeName
  rw [List.append_assoc]
  have hpre : pfx.isPrefixOf (pfx ++ (toV ++ '/' :: pyStr prev)) = true :=
    List.isPrefixOf_iff_prefix.mpr ⟨toV ++ '/' :: pyStr prev, rfl⟩
  rw [hpre]
  simp only [if_true, List.drop_left, (split_at_slash toV (pyStr prev) h).1,
    (split_at_slash toV (pyStr prev) h).2]

/-- `parseDiff` of an uploaded name: same `to`, and the `from` group is the
written last segment, mapped back to `None` when it is the literal marker. -/
theorem parseDiff_makeName (pfx toV : List Char) (prev : Option (List Char))
    (sz : Nat) (h : ∀ c ∈ toV, c ≠ '/') :
    parseDiff pfx { name := makeName pfx toV prev, size := sz }
      = some { frm := if pyStr prev = noneStr then none
                      else some (pyStr prev),
               toV := toV, size := (sz : ℚ) / 2 ^ 20, path := toV } := by
  unfold parseDiff
  rw [show ({ name := makeName pfx toV prev, size := sz } : Key).name
      = makeName pfx toV prev from rfl]
  rw [parseKey_makeName pfx toV prev h]

/-- The first scenario key `snap/V2/V1` parses to the edge `V1 → V2`. -/
theorem parseDiff_scen1 :
    parseDiff ("snap/".data) { name := "snap/V2/V1".data, size := 0 }
      = some { frm := some ("V1".data), toV := "V2".data, size := 0,
               path := "V2".data } := by
  have h2 : parseKey ("snap/".data) "snap/V2/V1".data
      = some ("V2".data, "V1".data) := by decide
  have hne : ("V1".data = noneStr) = False := eq_false (by decide)
  simp [parseDiff, h2, hne]

/-- The second scenario key `snap/V1/None` parses to the full snapshot
edge `None → V1`. -/
theorem parseDiff_scen2 :
    parseDiff ("snap/".data) { name := "snap/V1/None".data, size := 0 }
      = some { frm := none, toV := "V1".data, size := 0,
               path := "V1".data } := by
  have h2 : parseKey ("snap/".data) "snap/V1/None".data
      = some ("V1".data, "None".data) := by decide
  simp [parseDiff, h2, noneStr]

/-- Listing the scenario keys succeeds and produces `stScen`. -/
theorem listBucket_keysScen :
    listBucket ("snap/".data) stEmpty keysScen = (stScen, true) := by
  have hgo : listBucketGo ("snap/".data) keysScen []
      = ([{ frm := some ("V1".data), toV := "V2".data, size := 0,
            path := "V2".data },
          { frm := none, toV := "V1".data, size := 0, path := "V1".data }],
         true) := by
    simp only [keysScen, listBucketGo]
    rw [parseDiff_scen1, parseDiff_scen2]
    rfl
  unfold listBucket
  rw [hgo]
  rfl

/-- C8: the uploaded object name `prefix + to + "/" + (from or ("None"))` is
exactly what the listing parser inverts — parsing it yields the same `to`
and the original `from` (or `None` when the last segment is the literal
marker); and the scenario listing `snap/V2/V1`, `snap/V1/None` under prefix
`snap/` yields volumes `{V1, V2}` and edges `(V1→V2)`, `(None→V1)`. -/
theorem name_format_roundtrip :
    (∀ (pfx toV : List Char) (prev : Option (List Char)) (sz : Nat),
        (∀ c ∈ toV, c ≠ '/') →
        parseDiff pfx { name := makeName pfx toV prev, size := sz }
          = some { frm := if pyStr prev = noneStr then none
                          else some (pyStr prev),
                   toV := toV, size := (sz : ℚ) / 2 ^ 20, path := toV }) ∧
    (listBucket ("snap/".data) stEmpty keysScen = (stScen, true) ∧
     stScen.diffs.map (fun d => (d.frm, d.toV))
       = [(some ("V1".data), "V2".data), (none, "V1".data)] ∧
     stScen.vols.map Prod.fst = ["V2".data, "V1".data]) :=
  ⟨parseDiff_makeName, listBucket_keysScen, by decide, by decide⟩

/-- Witness for C8 at a concrete uploaded name. -/
theorem name_format_roundtrip_witness :
    parseDiff ("snap/".data)
        { name := makeName ("snap/".data) "V2".data (some ("V1".data)), size := 0 }
      = some { frm := if pyStr (some ("V1".data)) = noneStr then none
                      else some (pyStr (some ("V1".data))),
               toV := "V2".data, size := ((0 : Nat) : ℚ) / 2 ^ 20,
               path := "V2".data } :=
  name_format_roundtrip.1 ("snap/".data) "V2".data (some ("V1".data)) 0 (by decide)

end S3

namespace S3

/-- Keys of a dict after insertion: unchanged when the key was present,
extended by the key otherwise. -/
theorem dictInsert_keys (m : List (List Char × Vol)) (k : List Char) (v : Vol) :
    (dictInsert m k v).map Prod.fst =
      if k ∈ m.map Prod.fst then m.map Prod.fst else m.map Prod.fst ++ [k] := by
  unfold dictInsert
  by_cases hk : k ∈ m.map Prod.fst
  · rw [if_pos hk, if_pos hk, List.map_map]
    refine List.map_congr_left ?_
    intro p _
    by_cases hp : p.1 = k
    · simp [Function.comp, hp]
    · simp [Function.comp, hp]
  · rw [if_neg hk, if_neg hk, List.map_append]
    rfl

/-- Values of a dict built by `mkVols`-style insertions all have the form
`{uuid := key, path := key}`. -/
theorem dictInsert_form (m : List (List Char × Vol)) (k : List Char)
    (hm : ∀ p ∈ m, p.2 = ⟨p.1, p.1⟩) :
    ∀ p ∈ dictInsert m k ⟨k, k⟩, p.2 = ⟨p.1, p.1⟩ := by
  intro p hp
  unfold dictInsert at hp
  by_cases hk : k ∈ m.map Prod.fst
  · rw [if_pos hk] at hp
    obtain ⟨q, hq, rfl⟩ := List.mem_map.mp hp
    by_cases hqk : q.1 = k
    · simp [hqk]
    · simpa [hqk] using hm q hq
  · rw [if_neg hk] at hp
    rcases List.mem_append.mp hp with hp' | hp'
    · exact hm p hp'
    · rcases List.mem_singleton.mp hp' with rfl
      rfl

/-- The fold underlying `mkVols`, over an arbitrary starting dict:
key membership, key nodup-ness, and the value form are all preserved. -/
theorem mkVols_fold (ds : List Diff) :
    ∀ (m : List (List Char × Vol)),
      (∀ u, u ∈ ((ds.foldl (fun m d => dictInsert m d.toV ⟨d.toV, d.toV⟩) m).map
            Prod.fst) ↔ u ∈ m.map Prod.fst ∨ u ∈ ds.map Diff.toV) ∧
      ((m.map Prod.fst).Nodup →
        ((ds.foldl (fun m d => dictInsert m d.toV ⟨d.toV, d.toV⟩) m).map
            Prod.fst).Nodup) ∧
      ((∀ p ∈ m, p.2 = ⟨p.1, p.1⟩) →
        ∀ p ∈ ds.foldl (fun m d => dictInsert m d.toV ⟨d.toV, d.toV⟩) m,
          p.2 = ⟨p.1, p.1⟩) := by
  induction ds with
  | nil =>
    intro m
    exact ⟨fun u => ⟨fun h => Or.inl h,
        fun h => h.elim id (fun h' => absurd h' (List.not_mem_nil u))⟩,
      fun h => h, fun h => h⟩
  | cons d rest ih =>
    intro m
    refine ⟨fun u => ?_, fun hnd => ?_, fun hform => ?_⟩
    · rw [List.foldl_cons, (ih (dictInsert m d.toV ⟨d.toV, d.toV⟩)).1 u,
        dictInsert_keys, List.map_cons, List.mem_cons]
      by_cases hk : d.toV ∈ m.map Prod.fst
      · rw [if_pos hk]
        constructor
        · rintro (hu | hu)
          · exact Or.inl hu
          · exact Or.inr (Or.inr hu)
        · rintro (hu | (rfl | hu))
          · exact Or.inl hu
          · exact Or.inl hk
          · exact Or.inr hu
      · rw [if_neg hk]
        constructor
        · rintro (hu | hu)
          · rcases List.mem_append.mp hu with hu' | hu'
            · exact Or.inl hu'
            · exact Or.inr (Or.inl (List.mem_singleton.mp hu'))
          · exact Or.inr (Or.inr hu)
        · rintro (hu | (rfl | hu))
          · exact Or.inl (List.mem_append.mpr (Or.inl hu))
          · exact Or.inl (List.mem_append.mpr
              (Or.inr (List.mem_singleton.mpr rfl)))
          · exact Or.inr hu
    · rw [List.foldl_cons]
      refine (ih (dictInsert m d.toV ⟨d.toV, d.toV⟩)).2.1 ?_
      rw [dictInsert_keys]
      by_cases hk : d.toV ∈ m.map Prod.fst
      · rw [if_pos hk]; exact hnd
      · rw [if_neg hk]
        exact List.Nodup.append hnd (List.nodup_singleton _)
          (fun x hx hx' => hk ((List.mem_singleton.mp hx') ▸ hx))
    · rw [List.foldl_cons]
      exact (ih (dictInsert m d.toV ⟨d.toV, d.toV⟩)).2.2
        (dictInsert_form m d.toV hform)

end S3

namespace S3

/-- Counting occurrences in a nodup list is membership. -/
theorem countP_eq_ite_of_nodup (l : List (List Char)) (u : List Char)
    (h : l.Nodup) :
    l.countP (fun x => decide (x = u)) = if u ∈ l then 1 else 0 := by
  induction l with
  | nil => simp
  | cons a l ih =>
    have hnd := List.nodup_cons.mp h
    rw [List.countP_cons]
    by_cases hau : a = u
    · subst hau
      rw [ih hnd.2, if_neg hnd.1, if_pos (List.mem_cons_self a l)]
      simp
    · rw [ih hnd.2]
      have hcond : (decide (a = u)) = false := decide_eq_false hau
      rw [hcond]
      have hmem : (u ∈ a :: l) ↔ (u ∈ l) := by
        rw [List.mem_cons]
        exact ⟨fun hc => hc.resolve_left (fun he => hau he.symm), Or.inr⟩
      simp [hmem]

/-- One volume is listed per distinct `to` identifier of the diffs. -/
theorem mkVols_count (ds : List Diff) (u : List Char) :
    ((mkVols ds).map Prod.snd).countP (fun v => decide (v.uuid = u))
      = if u ∈ ds.map Diff.toV then 1 else 0 := by
  have hfold := mkVols_fold ds []
  have hform : ∀ p ∈ mkVols ds, p.2 = ⟨p.1, p.1⟩ :=
    hfold.2.2 (fun p hp => absurd hp (List.not_mem_nil p))
  have hnd : ((mkVols ds).map Prod.fst).Nodup := hfold.2.1 List.nodup_nil
  have hmem : ∀ w, w ∈ (mkVols ds).map Prod.fst ↔ w ∈ ds.map Diff.toV :=
    fun w => ⟨fun hw => ((hfold.1 w).mp hw).resolve_left (List.not_mem_nil w),
      fun hw => (hfold.1 w).mpr (Or.inr hw)⟩
  rw [List.countP_map]
  have hcong : ((mkVols ds).countP
        ((fun v => decide (v.uuid = u)) ∘ Prod.snd))
      = (mkVols ds).countP ((fun x => decide (x = u)) ∘ Prod.fst) := by
    refine List.countP_congr ?_
    intro p hp
    have := hform p hp
    simp [Function.comp, this]
  rw [hcong, ← List.countP_map, countP_eq_ite_of_nodup _ u hnd]
  exact if_congr (hmem u) rfl rfl

/-- C9: after any successful listing, `listVolumes` returns exactly one
volume per distinct `to` identifier among the listed diffs (duplicates
collapsed), and an identifier not occurring as a `to` — in particular one
occurring only as a `from` — is not a listed volume and `getVolume` fails
on it (`KeyError`, modelled as `none`). -/
theorem volumes_per_to (pfx : List Char) (st st' : S3State) (keys : List Key)
    (h : listBucket pfx st keys = (st', true)) :
    (∀ u, (listVolumes st').countP (fun v => decide (v.uuid = u))
        = if u ∈ st'.diffs.map Diff.toV then 1 else 0) ∧
    (∀ u, u ∉ st'.diffs.map Diff.toV → getVolume st' u = none) := by
  rw [listBucket_eq] at h
  cases hall : keys.all (fun k => (parseDiff pfx k).isSome) with
  | false => rw [hall] at h; simp at h
  | true =>
    rw [hall] at h
    simp only [if_true] at h
    have hst : st' = S3State.mk (keys.filterMap (parseDiff pfx))
        (mkVols (keys.filterMap (parseDiff pfx))) := by
      have hfst := congrArg Prod.fst h
      exact hfst.symm
    subst hst
    constructor
    · intro u
      exact mkVols_count (keys.filterMap (parseDiff pfx)) u
    · intro u hu
      have hfold := mkVols_fold (keys.filterMap (parseDiff pfx)) []
      have hkeys : u ∉ (mkVols (keys.filterMap (parseDiff pfx))).map Prod.fst :=
        fun hw => hu (((hfold.1 u).mp hw).resolve_left (List.not_mem_nil u))
      unfold getVolume
      rw [List.lookup_eq_none_iff]
      intro p hp
      have hp1 : p.1 ∈ (mkVols (keys.filterMap (parseDiff pfx))).map Prod.fst :=
        List.mem_map.mpr ⟨p, hp, rfl⟩
      have : u ≠ p.1 := fun he => hkeys (he ▸ hp1)
      exact bne_iff_ne.mpr this

/-- Witness for C9 at the concrete scenario listing. -/
theorem volumes_per_to_witness :
    ((listVolumes stScen).countP (fun v => decide (v.uuid = "V2".data))
        = if ("V2".data) ∈ stScen.diffs.map Diff.toV then 1 else 0) ∧
    ("Z".data ∉ stScen.diffs.map Diff.toV → getVolume stScen ("Z".data) = none) :=
  ⟨(volumes_per_to ("snap/".data) stEmpty stScen keysScen listBucket_keysScen).1
      "V2".data,
   (volumes_per_to ("snap/".data) stEmpty stScen keysScen listBucket_keysScen).2
      "Z".data⟩

end S3

namespace S3

/-- Every event recorded by the upload loop is an `upload_part` call. -/
theorem uploadLoop_mem (chunks : List (List Nat)) (fails : Nat → Bool) :
    ∀ (c : Nat) (e : Event), e ∈ (uploadLoop chunks fails c).1 →
      ∃ n, e = Event.uploadPart n := by
  induction chunks with
  | nil => intro c e he; exact absurd he (List.not_mem_nil e)
  | cons ch rest ih =>
    intro c e he
    unfold uploadLoop at he
    by_cases hch : ch = []
    · rw [if_pos hch] at he
      exact absurd he (List.not_mem_nil e)
    · rw [if_neg hch] at he
      by_cases hf : fails (c + 1) = true
      · rw [if_pos hf] at he
        exact ⟨c + 1, List.mem_singleton.mp he⟩
      · rw [if_neg hf] at he
        rcases List.mem_cons.mp he with rfl | he'
        · exact ⟨c + 1, rfl⟩
        · exact ih (c + 1) e he'

/-- The loop reports an error exactly when one of its attempted
`upload_part` calls raised. -/
theorem uploadLoop_err (chunks : List (List Nat)) (fails : Nat → Bool) :
    ∀ c, ((uploadLoop chunks fails c).2 = true ↔
      ∃ n, Event.uploadPart n ∈ (uploadLoop chunks fails c).1 ∧
        fails n = true) := by
  induction chunks with
  | nil => intro c; simp [uploadLoop]
  | cons ch rest ih =>
    intro c
    unfold uploadLoop
    by_cases hch : ch = []
    · rw [if_pos hch]; simp
    · rw [if_neg hch]
      by_cases hf : fails (c + 1) = true
      · rw [if_pos hf]
        exact iff_of_true rfl ⟨c + 1, List.mem_singleton.mpr rfl, hf⟩
      · rw [if_neg hf]
        show (uploadLoop rest fails (c + 1)).2 = true ↔
          ∃ n, Event.uploadPart n ∈
              Event.uploadPart (c + 1) :: (uploadLoop rest fails (c + 1)).1 ∧
            fails n = true
        rw [ih (c + 1)]
        constructor
        · rintro ⟨n, hn, hfn⟩
          exact ⟨n, List.mem_cons_of_mem _ hn, hfn⟩
        · rintro ⟨n, hn, hfn⟩
          rcases List.mem_cons.mp hn with he | hn'
          · have hn1 : n = c + 1 := by injection he
            rw [hn1] at hfn
            exact absurd hfn hf
          · exact ⟨n, hn', hfn⟩

/-- The loop itself never issues a commit or an abort call. -/
theorem uploadLoop_no_terminal (chunks : List (List Nat)) (fails : Nat → Bool)
    (c : Nat) :
    Event.cancelUpload ∉ (uploadLoop chunks fails c).1 ∧
    Event.completeUpload ∉ (uploadLoop chunks fails c).1 := by
  constructor <;> intro h <;>
    obtain ⟨n, hn⟩ := uploadLoop_mem chunks fails c _ h <;>
    exact Event.noConfusion hn

/-- C2: in every transfer, if some chunk upload raises then exactly one
`cancel_upload` and no `complete_upload` is issued and the error
propagates (`__exit__` returns `False`); if every chunk succeeds and the
stream is exhausted, exactly one `complete_upload` and no `cancel_upload`
is issued; and the error outcome holds exactly when an attempted chunk
upload raised. -/
theorem transfer_atomicity (keyName : List Char) (chunks : List (List Nat))
    (fails : Nat → Bool) :
    ((runUpload keyName chunks fails).2 = true →
      (runUpload keyName chunks fails).1.count Event.cancelUpload = 1 ∧
      (runUpload keyName chunks fails).1.count Event.completeUpload = 0) ∧
    ((runUpload keyName chunks fails).2 = false →
      (runUpload keyName chunks fails).1.count Event.completeUpload = 1 ∧
      (runUpload keyName chunks fails).1.count Event.cancelUpload = 0) ∧
    ((runUpload keyName chunks fails).2 = true ↔
      ∃ n, Event.uploadPart n ∈ (runUpload keyName chunks fails).1 ∧
        fails n = true) := by
  have hterm := uploadLoop_no_terminal chunks fails 0
  have herr := uploadLoop_err chunks fails 0
  have hc : (uploadLoop chunks fails 0).1.count Event.cancelUpload = 0 :=
    List.count_eq_zero.mpr hterm.1
  have hp : (uploadLoop chunks fails 0).1.count Event.completeUpload = 0 :=
    List.count_eq_zero.mpr hterm.2
  simp only [runUpload]
  cases he : (uploadLoop chunks fails 0).2 with
  | true =>
    refine ⟨fun _ => ?_, fun hfalse => absurd hfalse (by simp), ?_⟩
    · simp [List.count_cons, List.count_append, List.count_singleton, hc, hp]
    · constructor
      · intro _
        obtain ⟨n, hn, hfn⟩ := herr.mp he
        exact ⟨n, List.mem_cons_of_mem _ (List.mem_append.mpr (Or.inl hn)),
          hfn⟩
      · intro _
        rfl
  | false =>
    refine ⟨fun htrue => absurd htrue (by simp), fun _ => ?_, ?_⟩
    · simp [List.count_cons, List.count_append, List.count_singleton, hc, hp]
    · constructor
      · intro hfalse; exact absurd hfalse (by simp)
      · rintro ⟨n, hn, hfn⟩
        rcases List.mem_cons.mp hn with he' | hn'
        · exact Event.noConfusion he'
        · rcases List.mem_append.mp hn' with hn'' | hn''
          · have hcontra : (uploadLoop chunks fails 0).2 = true :=
              herr.mpr ⟨n, hn'', hfn⟩
            rw [he] at hcontra
            exact absurd hcontra (by simp)
          · exact Event.noConfusion (List.mem_singleton.mp hn'')

/-- Witness for C2: a two-chunk stream whose second part upload raises ends
with one abort and no commit; the same stream with no failure ends with
one commit and no abort. -/
theorem transfer_atomicity_witness :
    ((runUpload ("k".data) chunks2 failSecond).1.count Event.cancelUpload = 1 ∧
     (runUpload ("k".data) chunks2 failSecond).1.count Event.completeUpload = 0) ∧
    ((runUpload ("k".data) chunks2 noFail).1.count Event.completeUpload = 1 ∧
     (runUpload ("k".data) chunks2 noFail).1.count Event.cancelUpload = 0) :=
  ⟨(transfer_atomicity ("k".data) chunks2 failSecond).1 (by decide),
   (transfer_atomicity ("k".data) chunks2 noFail).2.1 (by decide)⟩

/-- C6: `receive` from a store to itself returns immediately: no stream
read, no transaction begin, no chunk upload, no error. -/
theorem receive_self (selfId : Nat) (pfx : List Char) (d : DiffRequest)
    (chunks : List (List Nat)) (fails : Nat → Bool)
    (h : d.diffSink = selfId) :
    receive selfId pfx d chunks fails = ([], false) := by
  unfold receive
  rw [if_pos h]

/-- Witness for C6 at a concrete self-transfer. -/
theorem receive_self_witness :
    receive 7 ("p/".data) { uuid := "A".data, previous := none, diffSink := 7 }
        chunks2 noFail = ([], false) :=
  receive_self 7 ("p/".data)
    { uuid := "A".data, previous := none, diffSink := 7 } chunks2 noFail rfl

/-- Part numbers recorded by the loop are consecutive from
`chunkCount + 1`. -/
theorem uploadLoop_partNums (chunks : List (List Nat)) (fails : Nat → Bool) :
    ∀ c, (uploadLoop chunks fails c).1.filterMap partNum
      = List.range' (c + 1) (uploadLoop chunks fails c).1.length := by
  induction chunks with
  | nil => intro c; rfl
  | cons ch rest ih =>
    intro c
    unfold uploadLoop
    by_cases hch : ch = []
    · rw [if_pos hch]; rfl
    · rw [if_neg hch]
      by_cases hf : fails (c + 1) = true
      · rw [if_pos hf]; rfl
      · rw [if_neg hf]
        show (Event.uploadPart (c + 1) ::
            (uploadLoop rest fails (c + 1)).1).filterMap partNum
          = List.range' (c + 1) (Event.uploadPart (c + 1) ::
              (uploadLoop rest fails (c + 1)).1).length
        rw [List.filterMap_cons_some
          (show partNum (Event.uploadPart (c + 1)) = some (c + 1) from rfl)]
        rw [List.length_cons, List.range'_succ, ih (c + 1)]

/-- C10: within one transfer, the part numbers passed to the chunk upload
calls are exactly `1, 2, ..., n` in that order (`chunkCount` starts at `0`
and is incremented by one before each call). -/
theorem consecutive_parts (keyName : List Char) (chunks : List (List Nat))
    (fails : Nat → Bool) :
    (runUpload keyName chunks fails).1.filterMap partNum
      = List.range' 1
          ((runUpload keyName chunks fails).1.filterMap partNum).length := by
  simp only [runUpload]
  rw [List.filterMap_cons_none
    (show partNum (Event.initiate keyName) = none from rfl)]
  rw [List.filterMap_append]
  cases he : (uploadLoop chunks fails 0).2 with
  | true =>
    rw [if_pos rfl]
    rw [show List.filterMap partNum [Event.cancelUpload] = [] from rfl]
    rw [List.append_nil, uploadLoop_partNums chunks fails 0,
      List.length_range']
  | false =>
    rw [if_neg (by simp)]
    rw [show List.filterMap partNum [Event.completeUpload] = [] from rfl]
    rw [List.append_nil, uploadLoop_partNums chunks fails 0,
      List.length_range']

end S3

namespace Ioctl

/-- Bitwise or of a multiple of `2^k` with a value below `2^k` is addition:
the two operands occupy disjoint bit ranges. -/
theorem lor_two_pow_mul (k a b : Nat) (hb : b < 2 ^ k) :
    2 ^ k * a ||| b = 2 ^ k * a + b := by
  apply Nat.eq_of_testBit_eq
  intro i
  rw [Nat.testBit_or]
  have hshift : 2 ^ k * a = a <<< k := by
    rw [Nat.shiftLeft_eq, Nat.mul_comm]
  rcases Nat.lt_or_ge i k with hik | hik
  · have h1 : (2 ^ k * a).testBit i = false := by
      rw [hshift, Nat.testBit_shiftLeft]
      simp [Nat.not_le_of_gt hik]
    have hmod : (2 ^ k * a + b) % 2 ^ k = b := by
      rw [Nat.add_comm, Nat.add_mul_mod_self_left]
      exact Nat.mod_eq_of_lt hb
    have h2 : (2 ^ k * a + b).testBit i = b.testBit i := by
      have hmb := Nat.testBit_mod_two_pow (2 ^ k * a + b) k i
      rw [hmod, decide_eq_true hik, Bool.true_and] at hmb
      exact hmb.symm
    rw [h1, h2, Bool.false_or]
  · have h1 : b.testBit i = false :=
      Nat.testBit_lt_two_pow
        (lt_of_lt_of_le hb (Nat.pow_le_pow_right (by norm_num) hik))
    have h2 : (2 ^ k * a).testBit i = a.testBit (i - k) := by
      rw [hshift, Nat.testBit_shiftLeft, decide_eq_true hik, Bool.true_and]
    have hdiv : (2 ^ k * a + b) / 2 ^ k = a := by
      rw [Nat.add_comm, Nat.add_mul_div_left _ _ (Nat.two_pow_pos k),
        Nat.div_eq_of_lt hb, Nat.zero_add]
    have h3 : (2 ^ k * a + b).testBit i = a.testBit (i - k) := by
      have hsr := Nat.testBit_shiftRight (2 ^ k * a + b) (i := k) (j := i - k)
      rw [Nat.shiftRight_eq_div_pow, hdiv,
        Nat.add_sub_cancel' hik] at hsr
      exact hsr.symm
    rw [h1, h2, h3, Bool.or_false]

/-- The composed operation code in additive form, fields at their fixed
offsets: `nr` at bit 0, `type` at bit 8, `size` at bit 16, `dir` at
bit 30. -/
theorem iocNumber_eq (dir typ nr size : Nat) (hd : dir < 4)
    (ht : typ < 256) (hn : nr < 256) (hs : size < 16384) :
    iocNumber dir typ nr size
      = 1073741824 * dir + 65536 * size + 256 * typ + nr := by
  simp only [iocNumber, NRSHIFT, TYPESHIFT, SIZESHIFT, DIRSHIFT, NRBITS,
    TYPEBITS, SIZEBITS]
  have e30 : (0 + 8 + 8 + 14 : Nat) = 30 := by norm_num
  have e16 : (0 + 8 + 8 : Nat) = 16 := by norm_num
  have e8 : (0 + 8 : Nat) = 8 := by norm_num
  rw [e30, e16, e8, Nat.shiftLeft_zero, Nat.shiftLeft_eq, Nat.shiftLeft_eq,
    Nat.shiftLeft_eq]
  have hA : typ * 2 ^ 8 ||| nr = 256 * typ + nr := by
    rw [Nat.mul_comm]
    have := lor_two_pow_mul 8 typ nr (by norm_num; omega)
    rw [this]
    norm_num
  have hB : size * 2 ^ 16 ||| (256 * typ + nr)
      = 65536 * size + (256 * typ + nr) := by
    rw [Nat.mul_comm]
    have := lor_two_pow_mul 16 size (256 * typ + nr) (by norm_num; omega)
    rw [this]
    norm_num
  have hC : dir * 2 ^ 30 ||| (65536 * size + (256 * typ + nr))
      = 1073741824 * dir + (65536 * size + (256 * typ + nr)) := by
    rw [Nat.mul_comm]
    have := lor_two_pow_mul 30 dir (65536 * size + (256 * typ + nr))
      (by norm_num; omega)
    rw [this]
    norm_num
  rw [Nat.lor_assoc (dir * 2 ^ 30) (typ * 2 ^ 8) nr, hA,
    Nat.lor_assoc (dir * 2 ^ 30) (256 * typ + nr) (size * 2 ^ 16),
    Nat.lor_comm (256 * typ + nr) (size * 2 ^ 16), hB, hC]
  omega

end Ioctl

namespace Ioctl

/-- C4: for all field values within their declared bit widths
(`dir < 2^2`, `type < 2^8`, `nr < 2^8`, `size < 2^14`), each field is
recovered from the composed operation code by shifting right by its fixed
offset and masking with its fixed-width mask, and the composition is
injective over the tuple space. -/
theorem ioc_fields_recoverable (dir typ nr size : Nat)
    (hd : dir < 2 ^ DIRBITS) (ht : typ < 2 ^ TYPEBITS)
    (hn : nr < 2 ^ NRBITS) (hs : size < 2 ^ SIZEBITS) :
    ((iocNumber dir typ nr size >>> DIRSHIFT) &&& DIRMASK = dir ∧
     (iocNumber dir typ nr size >>> TYPESHIFT) &&& TYPEMASK = typ ∧
     (iocNumber dir typ nr size >>> NRSHIFT) &&& NRMASK = nr ∧
     (iocNumber dir typ nr size >>> SIZESHIFT) &&& SIZEMASK = size) ∧
    (∀ dir' typ' nr' size', dir' < 2 ^ DIRBITS → typ' < 2 ^ TYPEBITS →
      nr' < 2 ^ NRBITS → size' < 2 ^ SIZEBITS →
      iocNumber dir typ nr size = iocNumber dir' typ' nr' size' →
      dir = dir' ∧ typ = typ' ∧ nr = nr' ∧ size = size') := by
  have hd' : dir < 4 := hd
  have ht' : typ < 256 := ht
  have hn' : nr < 256 := hn
  have hs' : size < 16384 := hs
  have heq := iocNumber_eq dir typ nr size hd' ht' hn' hs'
  refine ⟨⟨?_, ?_, ?_, ?_⟩, ?_⟩
  · rw [heq]
    show (1073741824 * dir + 65536 * size + 256 * typ + nr) >>> 30
        &&& (2 ^ 2 - 1) = dir
    rw [Nat.shiftRight_eq_div_pow, Nat.and_pow_two_sub_one_eq_mod]
    show (1073741824 * dir + 65536 * size + 256 * typ + nr)
        / 1073741824 % 4 = dir
    omega
  · rw [heq]
    show (1073741824 * dir + 65536 * size + 256 * typ + nr) >>> 8
        &&& (2 ^ 8 - 1) = typ
    rw [Nat.shiftRight_eq_div_pow, Nat.and_pow_two_sub_one_eq_mod]
    show (1073741824 * dir + 65536 * size + 256 * typ + nr)
        / 256 % 256 = typ
    omega
  · rw [heq]
    show (1073741824 * dir + 65536 * size + 256 * typ + nr) >>> 0
        &&& (2 ^ 8 - 1) = nr
    rw [Nat.shiftRight_eq_div_pow, Nat.and_pow_two_sub_one_eq_mod]
    show (1073741824 * dir + 65536 * size + 256 * typ + nr)
        / 1 % 256 = nr
    omega
  · rw [heq]
    show (1073741824 * dir + 65536 * size + 256 * typ + nr) >>> 16
        &&& (2 ^ 14 - 1) = size
    rw [Nat.shiftRight_eq_div_pow, Nat.and_pow_two_sub_one_eq_mod]
    show (1073741824 * dir + 65536 * size + 256 * typ + nr)
        / 65536 % 16384 = size
    omega
  · intro dir' typ' nr' size' hd2 ht2 hn2 hs2 hcodes
    have hd2' : dir' < 4 := hd2
    have ht2' : typ' < 256 := ht2
    have hn2' : nr' < 256 := hn2
    have hs2' : size' < 16384 := hs2
    have heq' := iocNumber_eq dir' typ' nr' size' hd2' ht2' hn2' hs2'
    rw [heq, heq'] at hcodes
    exact ⟨by omega, by omega, by omega, by omega⟩

/-- Witness for C4 at the concrete tuple `(READ, 0x94, 38, 65)` (a
btrfs-style ioctl): all four fields are recovered from the code. -/
theorem ioc_fields_recoverable_witness :
    (iocNumber 2 148 38 65 >>> DIRSHIFT) &&& DIRMASK = 2 ∧
    (iocNumber 2 148 38 65 >>> TYPESHIFT) &&& TYPEMASK = 148 ∧
    (iocNumber 2 148 38 65 >>> NRSHIFT) &&& NRMASK = 38 ∧
    (iocNumber 2 148 38 65 >>> SIZESHIFT) &&& SIZEMASK = 65 :=
  (ioc_fields_recoverable 2 148 38 65 (by decide) (by decide) (by decide)
    (by decide)).1

end Ioctl

namespace Ioctl

/-- `toLE` produces exactly `w` bytes. -/
theorem toLE_length (w : Nat) : ∀ n, (toLE w n).length = w := by
  induction w with
  | zero => intro n; rfl
  | succ w ih => intro n; simp [toLE, ih]

/-- Little-endian round trip for an in-range integer. -/
theorem fromLE_toLE (w : Nat) : ∀ n, n < 256 ^ w → fromLE (toLE w n) = n := by
  induction w with
  | zero =>
    intro n h
    rw [Nat.pow_zero] at h
    have hn : n = 0 := Nat.lt_one_iff.mp h
    subst hn
    rfl
  | succ w ih =>
    intro n h
    have hdiv : n / 256 < 256 ^ w := by
      rw [Nat.div_lt_iff_lt_mul (by norm_num)]
      calc n < 256 ^ (w + 1) := h
        _ = 256 ^ w * 256 := by rw [Nat.pow_succ]
    simp only [toLE, fromLE, ih (n / 256) hdiv]
    omega

/-- `padTrunc` produces exactly `len` bytes. -/
theorem padTrunc_length (b : List Nat) (len : Nat) :
    (padTrunc b len).length = len := by
  simp [padTrunc]
  omega

/-- Trimming at the first zero byte does not look past that zero byte. -/
theorem trimNull_mid (b zs zs' : List Nat) :
    (b ++ 0 :: zs).takeWhile (fun x => decide (x ≠ 0))
      = (b ++ 0 :: zs').takeWhile (fun x => decide (x ≠ 0)) := by
  induction b with
  | nil => simp [List.takeWhile_cons]
  | cons x b ih =>
    rw [List.cons_append, List.takeWhile_cons, List.cons_append,
      List.takeWhile_cons]
    by_cases hx : x = 0
    · subst hx
      rfl
    · have hc : decide (x ≠ 0) = true := decide_eq_true hx
      rw [hc, ih]

/-- The extra terminating zero byte written by `t.writeString` does not
change the trimmed read-back: trimming the packed buffer of `b ++ [0]`
equals trimming the packed buffer of `b` itself. -/
theorem trimNull_padTrunc (b : List Nat) (len : Nat) :
    trimNull (padTrunc (b ++ [0]) len) = trimNull (padTrunc b len) := by
  unfold padTrunc trimNull
  rcases Nat.lt_or_ge b.length len with h | h
  · have htake1 : (b ++ [0]).take len = b ++ [0] :=
      List.take_of_length_le (by simp; omega)
    have htake2 : b.take len = b := List.take_of_length_le (by omega)
    have hlb : (b ++ [0]).length = b.length + 1 := by simp
    rw [htake1, htake2, hlb]
    have harr : len - b.length = (len - (b.length + 1)) + 1 := by omega
    rw [harr, List.replicate_succ, List.append_assoc]
    exact trimNull_mid b (List.replicate (len - (b.length + 1)) 0)
      (List.replicate (len - (b.length + 1)) 0)
  · have htake1 : (b ++ [0]).take len = b.take len := by
      rw [List.take_append_eq_append_take]
      have hz : len - b.length = 0 := by omega
      rw [hz]
      simp
    have hrep1 : len - (b ++ [0]).length = 0 := by simp; omega
    have hrep2 : len - b.length = 0 := by omega
    rw [htake1, hrep1, hrep2]

end Ioctl

namespace Ioctl

mutual

/-- Reading back what one field wrote consumes exactly its bytes and
yields the field's canonical value, leaving the rest of the buffer. -/
theorem writeField_read : ∀ (f : FieldDef) (v : Value) (b rest : List Nat),
    writeField f v = some b →
    readField f (b ++ rest) = some (canonField f v, rest)
  | .uintF nm w, v, b, rest => fun h => by
    cases v with
    | vInt n =>
      unfold writeField at h
      by_cases hlt : n < 256 ^ w
      · rw [if_pos hlt] at h
        have hb : b = toLE w n := (Option.some.inj h).symm
        subst hb
        unfold readField
        have hlen : w ≤ (toLE w n ++ rest).length := by
          rw [List.length_append, toLE_length]
          exact Nat.le_add_right w rest.length
        rw [if_pos hlen, List.take_left' (toLE_length w n),
          List.drop_left' (toLE_length w n), fromLE_toLE w n hlt]
        rfl
      · rw [if_neg hlt] at h
        exact Option.noConfusion h
    | vBytes bb => exact Option.noConfusion h
    | vRec vs => exact Option.noConfusion h
    | vNone => exact Option.noConfusion h
  | .charF nm, v, b, rest => fun h => by
    cases v with
    | vInt n =>
      unfold writeField at h
      by_cases hlt : n < 256
      · rw [if_pos hlt] at h
        have hb : b = [n] := (Option.some.inj h).symm
        subst hb
        rfl
      · rw [if_neg hlt] at h
        exact Option.noConfusion h
    | vBytes bb => exact Option.noConfusion h
    | vRec vs => exact Option.noConfusion h
    | vNone => exact Option.noConfusion h
  | .bytesF nm len asStr, v, b, rest => fun h => by
    cases asStr with
    | false =>
      cases v with
      | vBytes bb =>
        unfold writeField at h
        by_cases hall : bb.all (fun x => decide (x < 256)) = true
        · rw [if_pos hall] at h
          have hb : b = padTrunc bb len := (Option.some.inj h).symm
          subst hb
          unfold readField
          have hlen : len ≤ (padTrunc bb len ++ rest).length := by
            rw [List.length_append, padTrunc_length]
            exact Nat.le_add_right _ _
          rw [if_pos hlen, List.take_left' (padTrunc_length bb len),
            List.drop_left' (padTrunc_length bb len)]
          rfl
        · rw [if_neg hall] at h
          exact Option.noConfusion h
      | vInt n => exact Option.noConfusion h
      | vRec vs => exact Option.noConfusion h
      | vNone => exact Option.noConfusion h
    | true =>
      cases v with
      | vBytes bb =>
        unfold writeField at h
        by_cases hall : bb.all (fun x => decide (x < 256)) = true
        · rw [if_pos hall] at h
          have hb : b = padTrunc (bb ++ [0]) len := (Option.some.inj h).symm
          subst hb
          unfold readField
          have hlen : len ≤ (padTrunc (bb ++ [0]) len ++ rest).length := by
            rw [List.length_append, padTrunc_length]
            exact Nat.le_add_right _ _
          rw [if_pos hlen,
            List.take_left' (padTrunc_length (bb ++ [0]) len),
            List.drop_left' (padTrunc_length (bb ++ [0]) len),
            trimNull_padTrunc bb len]
          rfl
        · rw [if_neg hall] at h
          exact Option.noConfusion h
      | vInt n => exact Option.noConfusion h
      | vRec vs => exact Option.noConfusion h
      | vNone => exact Option.noConfusion h
  | .padF nm len, v, b, rest => fun h => by
    unfold writeField at h
    have hb : b = List.replicate len 0 := by
      cases v with
      | vInt n => exact (Option.some.inj h).symm
      | vBytes bb => exact (Option.some.inj h).symm
      | vRec vs => exact (Option.some.inj h).symm
      | vNone => exact (Option.some.inj h).symm
    subst hb
    unfold readField
    have hlen : len ≤ (List.replicate len 0 ++ rest).length := by
      rw [List.length_append, List.length_replicate]
      exact Nat.le_add_right _ _
    rw [if_pos hlen, List.drop_left' (List.length_replicate len 0)]
    cases v <;> rfl
  | .nestedF nm sub, v, b, rest => fun h => by
    cases v with
    | vRec vs =>
      unfold writeField at h
      have hr := writeFields_read sub vs b rest h
      unfold readField
      rw [hr]
      rfl
    | vInt n => exact Option.noConfusion h
    | vBytes bb => exact Option.noConfusion h
    | vNone => exact Option.noConfusion h

/-- Reading back what a field list wrote yields the canonical values in
order, leaving the rest of the buffer. -/
theorem writeFields_read : ∀ (fs : List FieldDef) (vs : List Value)
    (b rest : List Nat),
    writeFields fs vs = some b →
    readFields fs (b ++ rest) = some (canonFields fs vs, rest)
  | [], vs, b, rest => fun h => by
    cases vs with
    | nil =>
      have hb : b = [] := (Option.some.inj h).symm
      subst hb
      rfl
    | cons v vs => exact Option.noConfusion h
  | f :: fs, vs, b, rest => fun h => by
    cases vs with
    | nil => exact Option.noConfusion h
    | cons v vs =>
      unfold writeFields at h
      cases hw1 : writeField f v with
      | none => rw [hw1] at h; exact Option.noConfusion h
      | some b1 =>
        cases hw2 : writeFields fs vs with
        | none => rw [hw1, hw2] at h; exact Option.noConfusion h
        | some b2 =>
          rw [hw1, hw2] at h
          have hb : b = b1 ++ b2 := (Option.some.inj h).symm
          subst hb
          unfold readFields
          rw [List.append_assoc, writeField_read f v b1 (b2 ++ rest) hw1]
          dsimp only
          rw [writeFields_read fs vs b2 rest hw2]
          rfl

end

end Ioctl

namespace Ioctl

mutual

/-- On a writable value of a non-lossy field, the canonical read-back
value is the value itself. -/
theorem canonField_id : ∀ (f : FieldDef) (v : Value) (b : List Nat),
    writeField f v = some b → noLossyField f = true → canonField f v = v
  | .uintF nm w, v, b => fun _ _ => by cases v <;> rfl
  | .charF nm, v, b => fun _ _ => by cases v <;> rfl
  | .bytesF nm len asStr, v, b => fun _ hnl => Bool.noConfusion hnl
  | .padF nm len, v, b => fun _ hnl => Bool.noConfusion hnl
  | .nestedF nm sub, v, b => fun hw hnl => by
    cases v with
    | vRec vs =>
      unfold writeField at hw
      unfold canonField
      rw [canonFields_id sub vs b hw hnl]
    | vInt n => exact Option.noConfusion hw
    | vBytes bb => exact Option.noConfusion hw
    | vNone => exact Option.noConfusion hw

/-- On writable values of a non-lossy field list, the canonical read-back
values are the values themselves. -/
theorem canonFields_id : ∀ (fs : List FieldDef) (vs : List Value)
    (b : List Nat),
    writeFields fs vs = some b → noLossyFields fs = true →
    canonFields fs vs = vs
  | [], vs, b => fun hw _ => by
    cases vs with
    | nil => rfl
    | cons v vs => exact Option.noConfusion hw
  | f :: fs, vs, b => fun hw hnl => by
    cases vs with
    | nil => exact Option.noConfusion hw
    | cons v vs =>
      unfold writeFields at hw
      unfold noLossyFields at hnl
      rw [Bool.and_eq_true] at hnl
      cases hw1 : writeField f v with
      | none => rw [hw1] at hw; exact Option.noConfusion hw
      | some b1 =>
        cases hw2 : writeFields fs vs with
        | none => rw [hw1, hw2] at hw; exact Option.noConfusion hw
        | some b2 =>
          unfold canonFields
          rw [canonField_id f v b1 hw1 hnl.1,
            canonFields_id fs vs b2 hw2 hnl.2]

end

/-- C3: for every record descriptor and every value list the descriptor
can write, reading the written buffer back yields the canonical values:
identical values for integer, char and (recursively non-lossy) nested
record fields, and — for byte-array/string fields — the value truncated
or right-padded to the declared fixed length and trimmed at the first
zero byte. -/
theorem structure_roundtrip (fields : List FieldDef) (vs : List Value)
    (bs : List Nat) (h : structWrite fields vs = some bs) :
    structRead fields bs = some (canonFields fields vs) ∧
    (noLossyFields fields = true → canonFields fields vs = vs) := by
  constructor
  · have hr := writeFields_read fields vs bs [] h
    rw [List.append_nil] at hr
    unfold structRead
    rw [hr]
    rfl
  · intro hnl
    exact canonFields_id fields vs bs h hnl

/-- Witness for C3 at the doc example: the 11-byte buffer written from
`{foo: 8, bar: "hola", foobar: {char1: 'a'}}` reads back to those values
(the string field trimmed at its first zero byte). -/
theorem structure_roundtrip_witness :
    structRead fields0 bytes0
      = some [Value.vInt 8, Value.vBytes [104, 111, 108, 97],
              Value.vRec [Value.vInt 97]] :=
  (structure_roundtrip fields0 vals0 bytes0 rfl).1

end Ioctl
